import Mathlib

/-!
Shallow embedding of the Rust crate `multimap` (src/src/lib.rs), a
`MultiMap<K, V>` wrapping `HashMap<K, Vec<V>>`, together with proofs of the
specification claims about it.

Modelling decisions:
* The backing `HashMap<K, Vec<V>>` is embedded as an association list
  `List (K × List V)`.  A real hash map stores at most one entry per key;
  this representation invariant is `MultiMap.NodupKeys` below, and it is
  assumed exactly where the hash map's key uniqueness is load-bearing.
  The hash map's unspecified iteration order is fixed by the list order
  (claims never depend on cross-key order).
* `Vec<V>` is `List V`.
* The pre-1.0 Rust `HashMap::get` in this crate fails (task failure /
  panic) on an absent key; a failing lookup is modelled as `Option`,
  with `none` standing for the panic.  `MultiMap::remove_value` calls
  `self.get(k)` internally, so it is likewise embedded with an `Option`
  result whose `none` stands for that internal panic.
* Rust bounds `K: Hash + Eq`, `V: PartialEq + Clone` become `DecidableEq`
  instances; `Clone` is implicit (values are copied freely).
-/

set_option maxHeartbeats 1000000
set_option linter.unusedSectionVars false
set_option linter.unnecessarySimpa false

namespace Multimap

variable {K V : Type} [DecidableEq K] [DecidableEq V]

/-- The `MultiMap` struct: `data: HashMap<K, Vec<V>>`, embedded as an
association list from keys to value vectors. -/
structure MultiMap (K V : Type) where
  data : List (K × List V)
deriving DecidableEq

/-- Lookup in the backing hash map (`self.data.find(k)` semantics): the first
entry whose key equals `k`.  A well-formed hash map has at most one. -/
def findEntry (k : K) : List (K × List V) → Option (List V)
  | [] => none
  | p :: rest => if p.1 = k then some p.2 else findEntry k rest

/-- In-place overwrite of the entry for key `k` in the backing hash map
(the effect of writing through `self.data.get_mut(&k)`). -/
def updateEntry (k : K) (w : List V) : List (K × List V) → List (K × List V)
  | [] => []
  | p :: rest => if p.1 = k then (p.1, w) :: rest else p :: updateEntry k w rest

/-- Deletion of the entry for key `k` from the backing hash map
(`self.data.remove(k)`'s effect on the entries). -/
def removeKey (k : K) : List (K × List V) → List (K × List V)
  | [] => []
  | p :: rest => if p.1 = k then removeKey k rest else p :: removeKey k rest

/-- The loop body of `remove_value`: push every element not equal to `v`
into a fresh vector, in order. -/
def filterNe (v : V) : List V → List V
  | [] => []
  | val :: rest => if val ≠ v then val :: filterNe v rest else filterNe v rest

/-- MultiMap::new (also with_capacity_and_default_hasher: capacity is not
observable, so both produce the empty map). -/
def MultiMap.new : MultiMap K V := ⟨[]⟩

/-- Collection::len — number of keys of the backing map. -/
def MultiMap.len (m : MultiMap K V) : Nat :=
  m.data.length

/-- Collection::is_empty. -/
def MultiMap.is_empty (m : MultiMap K V) : Bool :=
  m.data.isEmpty

/-- Mutable::clear. -/
def MultiMap.clear (_m : MultiMap K V) : MultiMap K V :=
  ⟨[]⟩

/-- MultiMap::contains_key. -/
def MultiMap.contains_key (m : MultiMap K V) (k : K) : Bool :=
  (findEntry k m.data).isSome

/-- MultiMap::get — `self.data.get(k)`, which fails (panics) when the key is
absent; the panic is modelled by `none`. -/
def MultiMap.get (m : MultiMap K V) (k : K) : Option (List V) :=
  findEntry k m.data

/-- MultiMap::get_mut — same lookup and same failure contract as `get`;
the returned mutable vector is modelled by its value. -/
def MultiMap.get_mut (m : MultiMap K V) (k : K) : Option (List V) :=
  findEntry k m.data

/-- MultiMap::insert: if the key is present (`contains_key`, i.e. the lookup
succeeds), push `v` onto its vector; otherwise insert a fresh entry with the
one-element vector `[v]` (new hash-map entries land at an arbitrary position;
the embedding places them at the end). -/
def MultiMap.insert (m : MultiMap K V) (k : K) (v : V) : MultiMap K V :=
  match findEntry k m.data with
  | some vs => ⟨updateEntry k (vs ++ [v]) m.data⟩
  | none => ⟨m.data ++ [(k, [v])]⟩

/-- MultiMap::remove — `self.data.remove(k)` returns whether the key was
present; the embedding returns that Bool together with the resulting map. -/
def MultiMap.remove (m : MultiMap K V) (k : K) : Bool × MultiMap K V :=
  (m.contains_key k, ⟨removeKey k m.data⟩)

/-- MultiMap::remove_value, line by line: if `contains_key`, call `self.get(k)`
(whose failure is the `none` branch), rebuild the vector from the elements not
equal to `v`, then either remove the key (empty result) or overwrite the entry;
return `true`.  Otherwise return `false` with the map untouched. -/
def MultiMap.remove_value (m : MultiMap K V) (k : K) (v : V) :
    Option (Bool × MultiMap K V) :=
  if m.contains_key k then
    match m.get k with
    | none => none
    | some vs =>
      let new_vec := filterNe v vs
      if new_vec.isEmpty then
        some (true, (m.remove k).2)
      else
        some (true, ⟨updateEntry k new_vec m.data⟩)
  else
    some (false, m)

/-- MultiMap::as_vec body: for each entry, emit one `(key, value)` pair per
value in the entry's vector, in vector order, entries in map iteration
order. -/
def flattenEntries : List (K × List V) → List (K × V)
  | [] => []
  | p :: rest => p.2.map (fun v => (p.1, v)) ++ flattenEntries rest

/-- MultiMap::as_vec. -/
def MultiMap.as_vec (m : MultiMap K V) : List (K × V) :=
  flattenEntries m.data

/-- FromIterator::from_iter: start from the empty map (the capacity hint is
not observable) and insert every pair in input order. -/
def MultiMap.fromList (pairs : List (K × V)) : MultiMap K V :=
  pairs.foldl (fun m p => m.insert p.1 p.2) MultiMap.new

/-- PartialEq for MultiMap delegates to hash-map equality: equal sizes, and
every entry of the left map is found, with an element-wise equal vector,
in the right map. -/
def MultiMap.beq (m1 m2 : MultiMap K V) : Bool :=
  m1.data.length == m2.data.length &&
  m1.data.all (fun p => findEntry p.1 m2.data == some p.2)

/-- Representation invariant of the backing hash map: at most one entry per
key. -/
def MultiMap.NodupKeys (m : MultiMap K V) : Prop :=
  (m.data.map Prod.fst).Nodup

instance (m : MultiMap K V) : Decidable m.NodupKeys :=
  inferInstanceAs (Decidable (m.data.map Prod.fst).Nodup)

/-- Invariant I1 of the spec: every key present maps to a non-empty value
sequence. -/
def MultiMap.HasI1 (m : MultiMap K V) : Prop :=
  ∀ p ∈ m.data, p.2 ≠ []

instance (m : MultiMap K V) : Decidable m.HasI1 :=
  inferInstanceAs (Decidable (∀ p ∈ m.data, p.2 ≠ []))

/-- Values associated to key `k` in a flat pair sequence, in sequence
order (the spec-side description used by the round-trip claims). -/
def valuesOf (k : K) : List (K × V) → List V
  | [] => []
  | p :: rest => if p.1 = k then p.2 :: valuesOf k rest else valuesOf k rest

/-- The pairs of a flat pair sequence whose key is `k`, in sequence order. -/
def pairsWithKey (k : K) : List (K × V) → List (K × V)
  | [] => []
  | p :: rest => if p.1 = k then p :: pairsWithKey k rest else pairsWithKey k rest

/-- Concatenation of the vectors of all entries with key `k` (coincides with
the unique entry's vector when keys are nodup). -/
def valuesForKey (k : K) : List (K × List V) → List V
  | [] => []
  | p :: rest => (if p.1 = k then p.2 else []) ++ valuesForKey k rest

/-! Basic lemmas about the backing-map primitives. -/

lemma findEntry_append_of_some {k : K} {l1 l2 : List (K × List V)} {vs : List V}
    (h : findEntry k l1 = some vs) : findEntry k (l1 ++ l2) = some vs := by
  induction l1 with
  | nil => simp [findEntry] at h
  | cons p rest ih =>
    simp only [findEntry, List.cons_append] at h ⊢
    split at h
    · simpa [*] using h
    · simp only [*, if_false]
      exact ih h

lemma findEntry_append_of_none {k : K} {l1 l2 : List (K × List V)}
    (h : findEntry k l1 = none) : findEntry k (l1 ++ l2) = findEntry k l2 := by
  induction l1 with
  | nil => simp
  | cons p rest ih =>
    simp only [findEntry, List.cons_append] at h ⊢
    split at h
    · exact absurd h (by simp)
    · simp only [*, if_false]
      exact ih h

lemma updateEntry_of_none {k : K} {w : List V} {l : List (K × List V)}
    (h : findEntry k l = none) : updateEntry k w l = l := by
  induction l with
  | nil => rfl
  | cons p rest ih =>
    by_cases hp : p.1 = k
    · rw [findEntry, if_pos hp] at h
      exact absurd h (by simp)
    · rw [findEntry, if_neg hp] at h
      rw [updateEntry, if_neg hp, ih h]

lemma findEntry_updateEntry_self {k : K} {w vs : List V} {l : List (K × List V)}
    (h : findEntry k l = some vs) : findEntry k (updateEntry k w l) = some w := by
  induction l with
  | nil => simp [findEntry] at h
  | cons p rest ih =>
    by_cases hp : p.1 = k
    · simp [updateEntry, findEntry, hp]
    · simp only [findEntry, hp, if_false] at h
      simp only [updateEntry, hp, if_false, findEntry]
      exact ih h

lemma findEntry_updateEntry_ne {k k' : K} {w : List V} {l : List (K × List V)}
    (h : k' ≠ k) : findEntry k' (updateEntry k w l) = findEntry k' l := by
  induction l with
  | nil => rfl
  | cons p rest ih =>
    by_cases hp : p.1 = k
    · have hp' : ¬ p.1 = k' := fun hh => h (hh.symm.trans hp)
      simp [updateEntry, findEntry, hp, hp', Ne.symm h]
    · simp only [updateEntry, hp, if_false, findEntry]
      by_cases hk : p.1 = k'
      · simp [hk]
      · simp [hk, ih]

lemma findEntry_removeKey_self (k : K) (l : List (K × List V)) :
    findEntry k (removeKey k l) = none := by
  induction l with
  | nil => rfl
  | cons p rest ih =>
    by_cases hp : p.1 = k
    · simpa [removeKey, hp] using ih
    · simpa [removeKey, findEntry, hp] using ih

lemma findEntry_removeKey_ne {k k' : K} {l : List (K × List V)} (h : k' ≠ k) :
    findEntry k' (removeKey k l) = findEntry k' l := by
  induction l with
  | nil => rfl
  | cons p rest ih =>
    by_cases hp : p.1 = k
    · have hp' : ¬ p.1 = k' := fun hh => h (hh.symm.trans hp)
      simp [removeKey, findEntry, hp, hp', Ne.symm h, ih]
    · simp only [removeKey, hp, if_false, findEntry]
      by_cases hk : p.1 = k'
      · simp [hk]
      · simp [hk, ih]

lemma removeKey_of_none {k : K} {l : List (K × List V)}
    (h : findEntry k l = none) : removeKey k l = l := by
  induction l with
  | nil => rfl
  | cons p rest ih =>
    by_cases hp : p.1 = k
    · rw [findEntry, if_pos hp] at h
      exact absurd h (by simp)
    · rw [findEntry, if_neg hp] at h
      rw [removeKey, if_neg hp, ih h]

lemma filterNe_eq_filter (v : V) (vs : List V) :
    filterNe v vs = vs.filter (fun x => x ≠ v) := by
  induction vs with
  | nil => rfl
  | cons x rest ih =>
    by_cases hx : x = v
    · simp [filterNe, hx, ih]
    · simp [filterNe, hx, ih]

lemma findEntry_isSome_iff {k : K} {l : List (K × List V)} :
    (findEntry k l).isSome = true ↔ k ∈ l.map Prod.fst := by
  induction l with
  | nil => simp [findEntry]
  | cons p rest ih =>
    by_cases hp : p.1 = k
    · simp [findEntry, hp]
    · simp only [findEntry, hp, if_false, List.map_cons, List.mem_cons]
      rw [ih]
      constructor
      · exact Or.inr
      · rintro (h | h)
        · exact absurd h.symm hp
        · exact h

lemma findEntry_eq_none_iff {k : K} {l : List (K × List V)} :
    findEntry k l = none ↔ k ∉ l.map Prod.fst := by
  rw [← findEntry_isSome_iff, ← Option.not_isSome_iff_eq_none]

lemma findEntry_mem {k : K} {vs : List V} {l : List (K × List V)}
    (h : findEntry k l = some vs) : (k, vs) ∈ l := by
  induction l with
  | nil => simp [findEntry] at h
  | cons p rest ih =>
    rw [List.mem_cons]
    by_cases hp : p.1 = k
    · rw [findEntry, if_pos hp] at h
      left
      obtain ⟨a, b⟩ := p
      obtain rfl : b = vs := by injection h
      obtain rfl : a = k := hp
      rfl
    · rw [findEntry, if_neg hp] at h
      exact Or.inr (ih h)

lemma findEntry_of_mem_nodup {p : K × List V} {l : List (K × List V)}
    (hnd : (l.map Prod.fst).Nodup) (h : p ∈ l) : findEntry p.1 l = some p.2 := by
  induction l with
  | nil => simp at h
  | cons q rest ih =>
    simp only [List.map_cons, List.nodup_cons] at hnd
    rcases List.mem_cons.mp h with h | h
    · subst h
      simp [findEntry]
    · have hq : ¬ q.1 = p.1 := by
        intro hqp
        exact hnd.1 (hqp ▸ List.mem_map_of_mem Prod.fst h)
      simp only [findEntry, hq, if_false]
      exact ih hnd.2 h

lemma updateEntry_map_fst (k : K) (w : List V) (l : List (K × List V)) :
    (updateEntry k w l).map Prod.fst = l.map Prod.fst := by
  induction l with
  | nil => rfl
  | cons p rest ih =>
    simp only [updateEntry]
    split
    · simp
    · simp [ih]

lemma removeKey_map_fst (k : K) (l : List (K × List V)) :
    (removeKey k l).map Prod.fst = (l.map Prod.fst).filter (fun x => x ≠ k) := by
  induction l with
  | nil => rfl
  | cons p rest ih =>
    simp only [removeKey]
    by_cases hp : p.1 = k
    · simp [hp, ih, List.filter]
    · simp [hp, ih, List.filter]

lemma mem_updateEntry {q : K × List V} {k : K} {w : List V} {l : List (K × List V)}
    (h : q ∈ updateEntry k w l) : q ∈ l ∨ q.2 = w := by
  induction l with
  | nil => simp [updateEntry] at h
  | cons p rest ih =>
    by_cases hp : p.1 = k
    · rw [updateEntry, if_pos hp] at h
      rcases List.mem_cons.mp h with h | h
      · exact Or.inr (by rw [h])
      · exact Or.inl (List.mem_cons_of_mem _ h)
    · rw [updateEntry, if_neg hp] at h
      rcases List.mem_cons.mp h with h | h
      · exact Or.inl (h ▸ List.mem_cons_self _ _)
      · rcases ih h with h | h
        · exact Or.inl (List.mem_cons_of_mem _ h)
        · exact Or.inr h

lemma mem_removeKey {q : K × List V} {k : K} {l : List (K × List V)}
    (h : q ∈ removeKey k l) : q ∈ l := by
  induction l with
  | nil => simp [removeKey] at h
  | cons p rest ih =>
    by_cases hp : p.1 = k
    · rw [removeKey, if_pos hp] at h
      exact List.mem_cons_of_mem _ (ih h)
    · rw [removeKey, if_neg hp] at h
      rcases List.mem_cons.mp h with h | h
      · exact h ▸ List.mem_cons_self _ _
      · exact List.mem_cons_of_mem _ (ih h)

/-! Lemmas about flattening (as_vec) and per-key value extraction. -/

lemma flattenEntries_append (l1 l2 : List (K × List V)) :
    flattenEntries (l1 ++ l2) = flattenEntries l1 ++ flattenEntries l2 := by
  induction l1 with
  | nil => rfl
  | cons p rest ih => simp [flattenEntries, ih]

lemma valuesForKey_append (k : K) (l1 l2 : List (K × List V)) :
    valuesForKey k (l1 ++ l2) = valuesForKey k l1 ++ valuesForKey k l2 := by
  induction l1 with
  | nil => rfl
  | cons p rest ih => simp [valuesForKey, ih]

lemma valuesForKey_of_not_mem {k : K} {l : List (K × List V)}
    (h : k ∉ l.map Prod.fst) : valuesForKey k l = [] := by
  induction l with
  | nil => rfl
  | cons p rest ih =>
    simp only [List.map_cons, List.mem_cons] at h
    push_neg at h
    have hp : ¬ p.1 = k := fun hh => h.1 hh.symm
    simp [valuesForKey, hp, ih h.2]

lemma valuesForKey_eq_of_findEntry {k : K} {vs : List V} {l : List (K × List V)}
    (hnd : (l.map Prod.fst).Nodup) (h : findEntry k l = some vs) :
    valuesForKey k l = vs := by
  induction l with
  | nil => simp [findEntry] at h
  | cons p rest ih =>
    simp only [List.map_cons, List.nodup_cons] at hnd
    by_cases hp : p.1 = k
    · rw [findEntry, if_pos hp] at h
      injection h with h
      have hrest : valuesForKey k rest = [] :=
        valuesForKey_of_not_mem (hp ▸ hnd.1)
      simp [valuesForKey, hp, hrest, h]
    · rw [findEntry, if_neg hp] at h
      simp only [valuesForKey, hp, if_false, List.nil_append]
      exact ih hnd.2 h

lemma valuesOf_append (k : K) (l1 l2 : List (K × V)) :
    valuesOf k (l1 ++ l2) = valuesOf k l1 ++ valuesOf k l2 := by
  induction l1 with
  | nil => rfl
  | cons p rest ih =>
    by_cases hp : p.1 = k <;> simp [valuesOf, hp, ih]

lemma pairsWithKey_append (k : K) (l1 l2 : List (K × V)) :
    pairsWithKey k (l1 ++ l2) = pairsWithKey k l1 ++ pairsWithKey k l2 := by
  induction l1 with
  | nil => rfl
  | cons p rest ih =>
    by_cases hp : p.1 = k <;> simp [pairsWithKey, hp, ih]

lemma valuesOf_map_pair (k a : K) (vs : List V) :
    valuesOf k (vs.map (fun v => (a, v))) = if a = k then vs else [] := by
  induction vs with
  | nil => simp [valuesOf]
  | cons x rest ih =>
    by_cases ha : a = k
    · subst ha
      simp [valuesOf, ih]
    · simp [valuesOf, ha, ih]

lemma pairsWithKey_map_pair (k a : K) (vs : List V) :
    pairsWithKey k (vs.map (fun v => (a, v))) =
      if a = k then vs.map (fun v => (a, v)) else [] := by
  induction vs with
  | nil => simp [pairsWithKey]
  | cons x rest ih =>
    by_cases ha : a = k
    · subst ha
      simp [pairsWithKey, ih]
    · simp [pairsWithKey, ha, ih]

lemma valuesOf_flattenEntries (k : K) (l : List (K × List V)) :
    valuesOf k (flattenEntries l) = valuesForKey k l := by
  induction l with
  | nil => rfl
  | cons p rest ih =>
    rw [flattenEntries, valuesOf_append, valuesOf_map_pair, ih, valuesForKey]

lemma pairsWithKey_flattenEntries (k : K) (l : List (K × List V)) :
    pairsWithKey k (flattenEntries l) =
      (valuesForKey k l).map (fun v => (k, v)) := by
  induction l with
  | nil => rfl
  | cons p rest ih =>
    rw [flattenEntries, pairsWithKey_append, pairsWithKey_map_pair, ih, valuesForKey]
    by_cases hp : p.1 = k
    · subst hp
      simp
    · simp [hp]

/-! Lemmas about insert and about building a map by repeated insertion. -/

lemma insert_data_of_some {m : MultiMap K V} {k : K} {vs : List V} (v : V)
    (h : findEntry k m.data = some vs) :
    (m.insert k v).data = updateEntry k (vs ++ [v]) m.data := by
  simp [MultiMap.insert, h]

lemma insert_data_of_none {m : MultiMap K V} {k : K} (v : V)
    (h : findEntry k m.data = none) :
    (m.insert k v).data = m.data ++ [(k, [v])] := by
  simp [MultiMap.insert, h]

lemma insert_NodupKeys {m : MultiMap K V} (k : K) (v : V)
    (h : m.NodupKeys) : (m.insert k v).NodupKeys := by
  unfold MultiMap.NodupKeys at h ⊢
  cases hf : findEntry k m.data with
  | some vs =>
    rw [insert_data_of_some v hf, updateEntry_map_fst]
    exact h
  | none =>
    rw [insert_data_of_none v hf, List.map_append]
    have hk : k ∉ m.data.map Prod.fst := findEntry_eq_none_iff.mp hf
    rw [List.nodup_append]
    refine ⟨h, List.nodup_singleton k, ?_⟩
    intro a ha hak
    simp only [List.map_cons, List.map_nil, List.mem_singleton] at hak
    subst hak
    exact hk ha

lemma flattenEntries_updateEntry_perm {k : K} {vs : List V} (v : V)
    {l : List (K × List V)} (h : findEntry k l = some vs) :
    (flattenEntries (updateEntry k (vs ++ [v]) l)).Perm
      ((k, v) :: flattenEntries l) := by
  induction l with
  | nil => simp [findEntry] at h
  | cons p rest ih =>
    by_cases hp : p.1 = k
    · rw [findEntry, if_pos hp] at h
      injection h with h
      subst h
      subst hp
      rw [updateEntry, if_pos rfl]
      simp only [flattenEntries, List.map_append, List.map_cons, List.map_nil,
        List.append_assoc, List.singleton_append]
      exact List.perm_middle
    · rw [findEntry, if_neg hp] at h
      rw [updateEntry, if_neg hp]
      simp only [flattenEntries]
      refine List.Perm.trans (List.Perm.append_left _ (ih h)) ?_
      exact List.perm_middle

lemma as_vec_insert_perm (m : MultiMap K V) (k : K) (v : V) :
    ((m.insert k v).as_vec).Perm ((k, v) :: m.as_vec) := by
  cases hf : findEntry k m.data with
  | some vs =>
    rw [MultiMap.as_vec, MultiMap.as_vec, insert_data_of_some v hf]
    exact flattenEntries_updateEntry_perm v hf
  | none =>
    rw [MultiMap.as_vec, MultiMap.as_vec, insert_data_of_none v hf,
      flattenEntries_append]
    simp only [flattenEntries, List.map_cons, List.map_nil, List.append_nil]
    exact List.perm_append_singleton _ _

lemma valuesForKey_updateEntry {k k' : K} {vs : List V} (v : V)
    {l : List (K × List V)} (hnd : (l.map Prod.fst).Nodup)
    (h : findEntry k l = some vs) :
    valuesForKey k' (updateEntry k (vs ++ [v]) l) =
      valuesForKey k' l ++ (if k = k' then [v] else []) := by
  induction l with
  | nil => simp [findEntry] at h
  | cons p rest ih =>
    simp only [List.map_cons, List.nodup_cons] at hnd
    by_cases hp : p.1 = k
    · rw [findEntry, if_pos hp] at h
      injection h with h
      subst h
      rw [updateEntry, if_pos hp]
      by_cases hk : k = k'
      · subst hk
        have hrest : valuesForKey k rest = [] :=
          valuesForKey_of_not_mem (hp ▸ hnd.1)
        simp [valuesForKey, hp, hrest]
      · have hp' : ¬ p.1 = k' := fun hh => hk (hp.symm.trans hh)
        simp [valuesForKey, hp', hk]
    · rw [findEntry, if_neg hp] at h
      rw [updateEntry, if_neg hp]
      simp only [valuesForKey]
      rw [ih hnd.2 h, List.append_assoc]

lemma valuesForKey_insert {m : MultiMap K V} (hnd : m.NodupKeys) (k k' : K)
    (v : V) :
    valuesForKey k' (m.insert k v).data =
      valuesForKey k' m.data ++ (if k = k' then [v] else []) := by
  cases hf : findEntry k m.data with
  | some vs =>
    rw [insert_data_of_some v hf]
    exact valuesForKey_updateEntry v hnd hf
  | none =>
    rw [insert_data_of_none v hf, valuesForKey_append]
    simp [valuesForKey]

lemma foldl_insert_as_vec_perm (pairs : List (K × V)) (m : MultiMap K V) :
    ((pairs.foldl (fun m p => m.insert p.1 p.2) m).as_vec).Perm
      (m.as_vec ++ pairs) := by
  induction pairs generalizing m with
  | nil => simp
  | cons p rest ih =>
    rw [List.foldl_cons]
    refine List.Perm.trans (ih _) ?_
    refine List.Perm.trans
      (List.Perm.append_right rest (as_vec_insert_perm m p.1 p.2)) ?_
    have hps : ((p.1, p.2) :: m.as_vec) ++ rest = p :: (m.as_vec ++ rest) := rfl
    rw [hps]
    exact List.perm_middle.symm

lemma foldl_insert_NodupKeys (pairs : List (K × V)) (m : MultiMap K V)
    (h : m.NodupKeys) :
    (pairs.foldl (fun m p => m.insert p.1 p.2) m).NodupKeys := by
  induction pairs generalizing m with
  | nil => exact h
  | cons p rest ih =>
    rw [List.foldl_cons]
    exact ih _ (insert_NodupKeys _ _ h)

lemma foldl_insert_valuesForKey (pairs : List (K × V)) (m : MultiMap K V)
    (k : K) (h : m.NodupKeys) :
    valuesForKey k (pairs.foldl (fun m p => m.insert p.1 p.2) m).data =
      valuesForKey k m.data ++ valuesOf k pairs := by
  induction pairs generalizing m with
  | nil => simp [valuesOf]
  | cons p rest ih =>
    rw [List.foldl_cons, ih _ (insert_NodupKeys _ _ h),
      valuesForKey_insert h p.1 k p.2, List.append_assoc]
    congr 1
    by_cases hp : p.1 = k <;> simp [valuesOf, hp]

lemma new_NodupKeys : (MultiMap.new : MultiMap K V).NodupKeys := by
  simp [MultiMap.new, MultiMap.NodupKeys]

lemma fromList_NodupKeys (pairs : List (K × V)) :
    (MultiMap.fromList pairs).NodupKeys :=
  foldl_insert_NodupKeys pairs MultiMap.new new_NodupKeys

/-! Case analyses of the mutating operations, shared by the claim proofs. -/

lemma contains_key_eq_false_iff {m : MultiMap K V} {k : K} :
    m.contains_key k = false ↔ findEntry k m.data = none := by
  rw [MultiMap.contains_key]
  cases findEntry k m.data <;> simp

lemma contains_key_eq_true_iff {m : MultiMap K V} {k : K} :
    m.contains_key k = true ↔ ∃ vs, findEntry k m.data = some vs := by
  rw [MultiMap.contains_key]
  cases findEntry k m.data <;> simp

lemma remove_value_cases (m : MultiMap K V) (k : K) (v : V) :
    (m.contains_key k = false ∧ m.remove_value k v = some (false, m)) ∨
    (∃ vs, findEntry k m.data = some vs ∧ filterNe v vs = [] ∧
      m.remove_value k v = some (true, ⟨removeKey k m.data⟩)) ∨
    (∃ vs, findEntry k m.data = some vs ∧ filterNe v vs ≠ [] ∧
      m.remove_value k v = some (true, ⟨updateEntry k (filterNe v vs) m.data⟩)) := by
  by_cases hc : m.contains_key k
  · obtain ⟨vs, hvs⟩ := contains_key_eq_true_iff.mp hc
    by_cases he : filterNe v vs = []
    · refine Or.inr (Or.inl ⟨vs, hvs, he, ?_⟩)
      simp [MultiMap.remove_value, hc, MultiMap.get, hvs, he, MultiMap.remove]
    · refine Or.inr (Or.inr ⟨vs, hvs, he, ?_⟩)
      simp [MultiMap.remove_value, hc, MultiMap.get, hvs, he]
  · refine Or.inl ⟨by simpa using hc, ?_⟩
    simp [MultiMap.remove_value, hc]

lemma insert_HasI1 {m : MultiMap K V} (k : K) (v : V) (h : m.HasI1) :
    (m.insert k v).HasI1 := by
  intro p hp
  cases hf : findEntry k m.data with
  | some vs =>
    rw [insert_data_of_some v hf] at hp
    rcases mem_updateEntry hp with hm | he
    · exact h p hm
    · rw [he]
      simp
  | none =>
    rw [insert_data_of_none v hf] at hp
    rcases List.mem_append.mp hp with hm | hm
    · exact h p hm
    · rw [List.mem_singleton] at hm
      rw [hm]
      simp

lemma remove_HasI1 {m : MultiMap K V} (k : K) (h : m.HasI1) :
    ((m.remove k).2).HasI1 := by
  intro p hp
  exact h p (mem_removeKey hp)

lemma remove_value_HasI1 {m : MultiMap K V} {k : K} {v : V} {b : Bool}
    {m' : MultiMap K V} (h : m.HasI1)
    (hr : m.remove_value k v = some (b, m')) : m'.HasI1 := by
  rcases remove_value_cases m k v with ⟨_, hc⟩ | ⟨vs, _, _, hc⟩ | ⟨vs, _, he, hc⟩ <;>
    rw [hc] at hr <;> injection hr with hr <;> injection hr with _ hr <;> subst hr
  · exact h
  · intro p hp
    exact h p (mem_removeKey hp)
  · intro p hp
    rcases mem_updateEntry hp with hm | hw
    · exact h p hm
    · rw [hw]
      exact he

lemma fromList_HasI1 (pairs : List (K × V)) : (MultiMap.fromList pairs).HasI1 := by
  rw [MultiMap.fromList]
  have hgen : ∀ m : MultiMap K V, m.HasI1 →
      (pairs.foldl (fun m p => m.insert p.1 p.2) m).HasI1 := by
    induction pairs with
    | nil => exact fun m h => h
    | cons p rest ih =>
      intro m h
      rw [List.foldl_cons]
      exact ih _ (insert_HasI1 _ _ h)
  refine hgen _ ?_
  intro p hp
  simp [MultiMap.new] at hp

/-! Claim theorems. -/

/-- Claim C1: remove_value on an absent key returns false and leaves the map
unchanged; on a present key it returns true (whether or not v occurs), removes
every occurrence equal to v from the key's sequence preserving the surviving
order (a filter of the sequence), and when the filtered sequence is empty the
key itself is removed from the map. -/
theorem remove_value_filters (m : MultiMap K V) (k : K) (v : V) :
    (m.contains_key k = false → m.remove_value k v = some (false, m)) ∧
    (∀ vs, findEntry k m.data = some vs →
      ∃ m', m.remove_value k v = some (true, m') ∧
        m'.get k = (if vs.filter (fun x => x ≠ v) = [] then none
                    else some (vs.filter (fun x => x ≠ v)))) := by
  constructor
  · intro h
    rcases remove_value_cases m k v with ⟨_, hc⟩ | ⟨vs, hvs, _, _⟩ | ⟨vs, hvs, _, _⟩
    · exact hc
    · rw [contains_key_eq_false_iff.mp h] at hvs
      exact absurd hvs (by simp)
    · rw [contains_key_eq_false_iff.mp h] at hvs
      exact absurd hvs (by simp)
  · intro vs h
    rcases remove_value_cases m k v with ⟨hc, _⟩ | ⟨ws, hws, he, hc⟩ | ⟨ws, hws, he, hc⟩
    · rw [contains_key_eq_false_iff.mp hc] at h
      exact absurd h (by simp)
    · rw [h] at hws
      injection hws with hws
      subst hws
      refine ⟨_, hc, ?_⟩
      rw [← filterNe_eq_filter, he]
      simp only [if_pos rfl]
      exact findEntry_removeKey_self k m.data
    · rw [h] at hws
      injection hws with hws
      subst hws
      refine ⟨_, hc, ?_⟩
      rw [← filterNe_eq_filter, if_neg he]
      exact findEntry_updateEntry_self h

/-- Witness for C1 on the crate's own test map: key 1 maps to [3,5,7] and
removing value 3 keeps the key with sequence [5,7]. -/
theorem remove_value_filters_witness :
    ∃ m' : MultiMap Nat Nat,
      (MultiMap.fromList [(1, 3), (1, 5), (1, 7)]).remove_value 1 3 =
        some (true, m') ∧ m'.get 1 = some [5, 7] := by
  obtain ⟨m', h1, h2⟩ :=
    (remove_value_filters (MultiMap.fromList [(1, 3), (1, 5), (1, 7)]) 1 3).2
      [3, 5, 7] (by decide)
  refine ⟨m', h1, ?_⟩
  rw [h2]
  decide

/-- Claim C2: invariant I1 — no key maps to an empty value sequence — holds
in the empty map and is preserved by insert, remove, remove_value, clear and
by construction from a pair sequence. -/
theorem I1_invariant_preserved :
    ((MultiMap.new : MultiMap K V).HasI1) ∧
    (∀ m : MultiMap K V, ∀ k v, m.HasI1 → (m.insert k v).HasI1) ∧
    (∀ m : MultiMap K V, ∀ k, m.HasI1 → ((m.remove k).2).HasI1) ∧
    (∀ (m : MultiMap K V) (k : K) (v : V) (b : Bool) (m' : MultiMap K V),
      m.HasI1 → m.remove_value k v = some (b, m') → m'.HasI1) ∧
    (∀ m : MultiMap K V, (m.clear).HasI1) ∧
    (∀ pairs : List (K × V), (MultiMap.fromList pairs).HasI1) := by
  refine ⟨?_, ?_, ?_, ?_, ?_, ?_⟩
  · intro p hp
    simp [MultiMap.new] at hp
  · intro m k v h
    exact insert_HasI1 k v h
  · intro m k h
    exact remove_HasI1 k h
  · intro m k v b m' h hr
    exact remove_value_HasI1 h hr
  · intro m p hp
    simp [MultiMap.clear] at hp
  · intro pairs
    exact fromList_HasI1 pairs

/-- Witness for C2: inserting into the empty map preserves invariant I1. -/
theorem I1_invariant_preserved_witness :
    ((MultiMap.new : MultiMap Nat Nat).insert 1 3).HasI1 :=
  (I1_invariant_preserved).2.1 (MultiMap.new : MultiMap Nat Nat) 1 3 (by decide)

/-- Claim C3: insert appends v at the end of an existing key's sequence and
creates the one-element sequence [v] for a fresh key; a duplicate pair just
lengthens the sequence (no deduplication, and the operation is a total
function). -/
theorem insert_appends_or_creates (m : MultiMap K V) (k : K) (v : V) :
    (findEntry k m.data = none → (m.insert k v).get k = some [v]) ∧
    (∀ vs, findEntry k m.data = some vs →
      (m.insert k v).get k = some (vs ++ [v])) := by
  constructor
  · intro h
    rw [MultiMap.get, insert_data_of_none v h, findEntry_append_of_none h]
    simp [findEntry]
  · intro vs h
    rw [MultiMap.get, insert_data_of_some v h]
    exact findEntry_updateEntry_self h

/-- Witness for C3: inserting the duplicate pair (1,3) into a map where key 1
already holds [3] yields the two-element sequence [3,3]. -/
theorem insert_appends_or_creates_witness :
    (((MultiMap.new : MultiMap Nat Nat).insert 1 3).insert 1 3).get 1 =
      some [3, 3] := by
  have h :=
    (insert_appends_or_creates ((MultiMap.new : MultiMap Nat Nat).insert 1 3)
      1 3).2 [3] (by decide)
  simpa using h

/-- Claim C4: get and get_mut on an absent key fail (the panic is modelled by
none) rather than producing a default sequence, and on a present key get
returns exactly that key's value sequence. -/
theorem get_fails_on_absent (m : MultiMap K V) (k : K) :
    (m.contains_key k = false → m.get k = none ∧ m.get_mut k = none) ∧
    (∀ vs, findEntry k m.data = some vs →
      m.get k = some vs ∧ m.get_mut k = some vs) := by
  constructor
  · intro h
    have hf := contains_key_eq_false_iff.mp h
    exact ⟨hf, hf⟩
  · intro vs h
    exact ⟨h, h⟩

/-- Witness for C4: both lookups miss on the empty map. -/
theorem get_fails_on_absent_witness :
    (MultiMap.new : MultiMap Nat Nat).get 2 = none ∧
    (MultiMap.new : MultiMap Nat Nat).get_mut 2 = none :=
  (get_fails_on_absent (MultiMap.new : MultiMap Nat Nat) 2).1 (by decide)

/-- Claim C5: remove_value is total — the strict get it performs internally
only runs when the key is present, so it never hits the fatal-lookup failure
(the remaining operations insert, remove, clear, contains_key, len and
is_empty are total functions of the embedding by construction). -/
theorem remove_value_never_fails (m : MultiMap K V) (k : K) (v : V) :
    (m.remove_value k v).isSome = true := by
  rcases remove_value_cases m k v with ⟨_, hc⟩ | ⟨vs, _, _, hc⟩ | ⟨vs, _, _, hc⟩ <;>
    rw [hc] <;> rfl

lemma contains_key_eq_isSome_get (m : MultiMap K V) (k : K) :
    m.contains_key k = (m.get k).isSome := rfl

/-- Claim C6: building a map from a pair sequence and flattening it back
yields a permutation of the input (same pairs with the same multiplicities,
hence equal once both sides are sorted), and for every key the flattened
values appear in exactly the input order for that key. -/
theorem fromList_round_trip (pairs : List (K × V)) :
    ((MultiMap.fromList pairs).as_vec).Perm pairs ∧
    (∀ k : K, valuesOf k ((MultiMap.fromList pairs).as_vec) = valuesOf k pairs) := by
  constructor
  · have h := foldl_insert_as_vec_perm pairs (MultiMap.new : MultiMap K V)
    rw [MultiMap.fromList]
    simpa [MultiMap.as_vec, MultiMap.new, flattenEntries] using h
  · intro k
    rw [MultiMap.fromList, MultiMap.as_vec, valuesOf_flattenEntries,
      foldl_insert_valuesForKey pairs MultiMap.new k new_NodupKeys]
    simp [MultiMap.new, valuesForKey]

/-- Claim C7: restricting the flattened pair sequence of a map to the pairs
whose key is k yields exactly one pair per value of k's sequence, with the
values in that key's stored (insertion) order. -/
theorem as_vec_filtered_to_key (m : MultiMap K V) (k : K) (vs : List V)
    (hnd : m.NodupKeys) (h : findEntry k m.data = some vs) :
    pairsWithKey k m.as_vec = vs.map (fun v => (k, v)) ∧
    valuesOf k m.as_vec = vs := by
  constructor
  · rw [MultiMap.as_vec, pairsWithKey_flattenEntries,
      valuesForKey_eq_of_findEntry hnd h]
  · rw [MultiMap.as_vec, valuesOf_flattenEntries,
      valuesForKey_eq_of_findEntry hnd h]

/-- Witness for C7 on the crate's test map: inserting (1,3), (1,5), (1,7)
and filtering the flattened pairs to key 1 yields [(1,3),(1,5),(1,7)]. -/
theorem as_vec_filtered_to_key_witness :
    pairsWithKey 1
        (MultiMap.fromList [(1, 3), (1, 5), (1, 7)] : MultiMap Nat Nat).as_vec =
      [(1, 3), (1, 5), (1, 7)] := by
  have h :=
    (as_vec_filtered_to_key
      (MultiMap.fromList [(1, 3), (1, 5), (1, 7)] : MultiMap Nat Nat) 1
      [3, 5, 7] (by decide) (by decide)).1
  rw [h]
  rfl

/-- Claim C8: remove returns true exactly when the key was present, leaves
the key (and hence all of its values) absent afterwards, and is the identity
on the map when the key was absent. -/
theorem remove_returns_presence (m : MultiMap K V) (k : K) :
    (m.remove k).1 = m.contains_key k ∧
    ((m.remove k).2).contains_key k = false ∧
    ((m.remove k).2).get k = none ∧
    (m.contains_key k = false → (m.remove k).2 = m) := by
  refine ⟨rfl, ?_, ?_, ?_⟩
  · rw [contains_key_eq_false_iff]
    exact findEntry_removeKey_self k m.data
  · exact findEntry_removeKey_self k m.data
  · intro h
    have hf := contains_key_eq_false_iff.mp h
    show (⟨removeKey k m.data⟩ : MultiMap K V) = m
    rw [removeKey_of_none hf]

/-- Witness for C8: removing from the empty map is a no-op. -/
theorem remove_returns_presence_witness :
    ((MultiMap.new : MultiMap Nat Nat).remove 1).2 = MultiMap.new :=
  (remove_returns_presence (MultiMap.new : MultiMap Nat Nat) 1).2.2.2 (by decide)

/-- Claim C9: the PartialEq of two well-formed maps holds exactly when every
key is looked up to the same (element-wise equal, same order) value sequence
in both — same key set, same sequences; cross-key entry order is
irrelevant. -/
theorem beq_iff_entries_agree (m1 m2 : MultiMap K V)
    (h1 : m1.NodupKeys) (h2 : m2.NodupKeys) :
    m1.beq m2 = true ↔ ∀ k, findEntry k m1.data = findEntry k m2.data := by
  rw [MultiMap.beq, Bool.and_eq_true, beq_iff_eq, List.all_eq_true]
  simp only [beq_iff_eq]
  constructor
  · rintro ⟨hlen, hall⟩ k
    have hsub : (m1.data.map Prod.fst).toFinset ⊆ (m2.data.map Prod.fst).toFinset := by
      intro a ha
      rw [List.mem_toFinset] at ha ⊢
      obtain ⟨p, hp, rfl⟩ := List.mem_map.mp ha
      have hfp := hall p hp
      rw [← findEntry_isSome_iff, hfp]
      rfl
    have hcard1 : (m1.data.map Prod.fst).toFinset.card = m1.data.length := by
      rw [List.toFinset_card_of_nodup h1, List.length_map]
    have hcard2 : (m2.data.map Prod.fst).toFinset.card = m2.data.length := by
      rw [List.toFinset_card_of_nodup h2, List.length_map]
    have heq : (m1.data.map Prod.fst).toFinset = (m2.data.map Prod.fst).toFinset :=
      Finset.eq_of_subset_of_card_le hsub (by rw [hcard1, hcard2, hlen])
    cases hf : findEntry k m1.data with
    | some vs =>
      have hmem := findEntry_mem hf
      exact (hall (k, vs) hmem).symm
    | none =>
      have hk1 : k ∉ m1.data.map Prod.fst := findEntry_eq_none_iff.mp hf
      have hk2 : k ∉ m2.data.map Prod.fst := by
        intro hmem
        apply hk1
        rw [← List.mem_toFinset, heq, List.mem_toFinset]
        exact hmem
      rw [findEntry_eq_none_iff.mpr hk2]
  · intro h
    have hsetEq : (m1.data.map Prod.fst).toFinset = (m2.data.map Prod.fst).toFinset := by
      ext a
      simp only [List.mem_toFinset, ← findEntry_isSome_iff, h a]
    constructor
    · have hlm : (m1.data.map Prod.fst).length = (m2.data.map Prod.fst).length := by
        rw [← List.toFinset_card_of_nodup h1, ← List.toFinset_card_of_nodup h2, hsetEq]
      simpa using hlm
    · intro p hp
      rw [← h p.1]
      exact findEntry_of_mem_nodup h1 hp

/-- Witness for C9: two maps built from the same pairs with the keys
reordered agree on the lookup of key 1 (the equality test between them also
evaluates to true, which discharges the left-hand side). -/
theorem beq_iff_entries_agree_witness :
    findEntry 1 (MultiMap.fromList [(1, 3), (1, 5), (2, 6)] : MultiMap Nat Nat).data =
      findEntry 1 (MultiMap.fromList [(2, 6), (1, 3), (1, 5)] : MultiMap Nat Nat).data :=
  (beq_iff_entries_agree
    (MultiMap.fromList [(1, 3), (1, 5), (2, 6)] : MultiMap Nat Nat)
    (MultiMap.fromList [(2, 6), (1, 3), (1, 5)] : MultiMap Nat Nat)
    (by decide) (by decide)).mp (by decide) 1

/-- Claim C10: frame property — insert, remove and remove_value at key k
leave any other present key k' present with exactly its old value
sequence. -/
theorem frame_on_other_key (m : MultiMap K V) (k k' : K) (v : V)
    (hne : k' ≠ k) (hk' : m.contains_key k' = true) :
    ((m.insert k v).get k' = m.get k' ∧ (m.insert k v).contains_key k' = true) ∧
    (((m.remove k).2).get k' = m.get k' ∧
      ((m.remove k).2).contains_key k' = true) ∧
    (∀ (b : Bool) (m' : MultiMap K V), m.remove_value k v = some (b, m') →
      m'.get k' = m.get k' ∧ m'.contains_key k' = true) := by
  obtain ⟨ws, hws⟩ := contains_key_eq_true_iff.mp hk'
  have step : ∀ m' : MultiMap K V, m'.get k' = m.get k' →
      m'.get k' = m.get k' ∧ m'.contains_key k' = true := by
    intro m' hg
    refine ⟨hg, ?_⟩
    rw [contains_key_eq_isSome_get, hg, MultiMap.get, hws]
    rfl
  have hrm : findEntry k' (removeKey k m.data) = findEntry k' m.data :=
    findEntry_removeKey_ne hne
  refine ⟨?_, step _ hrm, ?_⟩
  · refine step _ ?_
    cases hf : findEntry k m.data with
    | some vs =>
      rw [MultiMap.get, MultiMap.get, insert_data_of_some v hf]
      exact findEntry_updateEntry_ne hne
    | none =>
      rw [MultiMap.get, MultiMap.get, insert_data_of_none v hf,
        findEntry_append_of_some hws, hws]
  · intro b m' hrv
    rcases remove_value_cases m k v with ⟨_, hc⟩ | ⟨vs, _, _, hc⟩ | ⟨vs, _, _, hc⟩ <;>
      rw [hc] at hrv <;> injection hrv with hrv <;>
      injection hrv with _ hrv <;> subst hrv
    · exact step _ rfl
    · exact step _ hrm
    · exact step _ (findEntry_updateEntry_ne hne)

/-- Witness for C10: after inserting (1,5) into a map holding keys 1 and 2,
key 2 still looks up to its old sequence. -/
theorem frame_on_other_key_witness :
    ((MultiMap.fromList [(1, 3), (2, 6)] : MultiMap Nat Nat).insert 1 5).get 2 =
      (MultiMap.fromList [(1, 3), (2, 6)] : MultiMap Nat Nat).get 2 :=
  ((frame_on_other_key (MultiMap.fromList [(1, 3), (2, 6)] : MultiMap Nat Nat)
    1 2 5 (by decide) (by decide)).1).1

end Multimap
